import Mathlib

/-!
Verification of the state-activation engine of the `ai_mind` repository
(`ai_mind2.py` / `ai_mind3.py` and the experiments), shallowly embedded in
Lean 4.  Activation levels and weights are modelled as rationals; the
activation store and the weight table are association lists keyed by state
name (mirroring Python dicts with their insertion-order semantics).
-/

namespace AiMind

/-- A member of the `states_tree` list loaded from `mind1.json`: a state
definition with a name (`название`), parent conditions (`условия`) and an
optional weight (`вес`). -/
structure StateDef where
  name : String
  conds : List String
  ves : Option ℚ := none
  deriving Repr, DecidableEq

/-- An activation store / weight table: a Python dict `str -> float`,
modelled as an association list with insertion-order semantics. -/
abbrev Store := List (String × ℚ)

/-- Reading an entry: Python dict assignment semantics.  If the key is
present, its (first) binding is overwritten in place; otherwise the new
binding is appended at the end, as Python dicts preserve insertion order. -/
def setK (m : Store) (k : String) (v : ℚ) : Store :=
  if (m.lookup k).isSome then
    m.map (fun p => if p.1 = k then (k, v) else p)
  else
    m ++ [(k, v)]

/-- Reading an activation: absent entries read as `0` (the spec's
`get(name) -> float, default 0.0`; in the source a state that is not in
`active_nodes` contributes nothing everywhere it is consulted). -/
def getA (m : Store) (k : String) : ℚ :=
  (m.lookup k).getD 0

/-- `find_children` of `ai_mind2.py`: all states whose `условия` contain
`parent`, in tree order. -/
def find_children (tree : List StateDef) (parent : String) : List String :=
  (tree.filter (fun n => n.conds.contains parent)).map (·.name)

/-- Membership in `nodes_map` (`ai_mind2.py`): the state name occurs in the
tree. -/
def knownState (tree : List StateDef) (s : String) : Bool :=
  tree.any (·.name == s)

/-- The tail of `update_activation` (`ai_mind2.py` lines 327-331) and the
spec's `decay_all(factor)`: every entry is multiplied by `factor` and
entries that fall below `0.1` are deleted. -/
def decayAll (factor : ℚ) (m : Store) : Store :=
  (m.map (fun p => (p.1, p.2 * factor))).filter (fun p => decide (1/10 ≤ p.2))

/-- The first two loops of `update_activation` (`ai_mind2.py` lines
313-325): states to activate get `min(1, a + 0.4)` if already active and the
base level `0.7` otherwise (unknown names are ignored); states to increase
get `min(1, a + 0.2)` if present. -/
def updateActivationCore (tree : List StateDef) (m : Store)
    (toActivate toIncrease : List String) : Store :=
  let m1 := toActivate.foldl (fun st s =>
    if knownState tree s then
      match st.lookup s with
      | some a => setK st s (min 1 (a + 2/5))
      | none => setK st s (7/10)
    else st) m
  toIncrease.foldl (fun st s =>
    match st.lookup s with
    | some a => setK st s (min 1 (a + 1/5))
    | none => st) m1

/-- `update_activation` (`ai_mind2.py` lines 308-331): the two bump loops
followed by the inline ambient decay (`*= 0.92`, delete below `0.1`). -/
def update_activation (tree : List StateDef) (m : Store)
    (toActivate toIncrease : List String) : Store :=
  decayAll (23/25) (updateActivationCore tree m toActivate toIncrease)

/-- One iteration's `new_activations` dict (`ai_mind2.py` lines 188-204):
each state at activation `≥ 0.1` contributes `activation * 0.5` to every
direct child, influences for the same child summing, capped at `1`. -/
def newActivations (tree : List StateDef) (m : Store) : Store :=
  m.foldl (fun (acc : Store) (p : String × ℚ) =>
    if p.2 < 1/10 then acc
    else (find_children tree p.1).foldl (fun acc2 child =>
      match acc2.lookup child with
      | some v => setK acc2 child (min 1 (v + p.2 * (1/2)))
      | none => setK acc2 child (p.2 * (1/2))) acc) []

/-- The body of the update loop of `propagate_activation` (`ai_mind2.py`
lines 207-212): a state already present gets `min(1, current + value)`; an
absent state is created (at `value`) only when `value > 0.2`. -/
def applyStep (st : Store) (p : String × ℚ) : Store :=
  match st.lookup p.1 with
  | some cur => setK st p.1 (min 1 (cur + p.2))
  | none => if p.2 > 1/5 then setK st p.1 p.2 else st

/-- Applying one iteration's accumulated influences (`ai_mind2.py` lines
206-212). -/
def applyActivations (m : Store) (acts : Store) : Store :=
  acts.foldl applyStep m

/-- One propagation iteration (`ai_mind2.py` lines 187-212). -/
def propagateIter (tree : List StateDef) (m : Store) : Store :=
  applyActivations m (newActivations tree m)

/-- `propagate_activation(iterations)` (`ai_mind2.py` lines 180-214): the
iteration repeated, each round reading the store updated by the previous
round. -/
def propagateN (tree : List StateDef) (iterations : Nat) (m : Store) : Store :=
  match iterations with
  | 0 => m
  | n + 1 => propagateN tree n (propagateIter tree m)

/-- The `urgency_weights` table of `ai_mind2.py` lines 42-51. -/
def urgency_weights : Store :=
  [("Гнев", 9/10), ("Уточнение", 7/10), ("Вывод", 4/5), ("Признание", 7/10),
   ("Сомнение", 3/10), ("О грёзах", 1/10), ("Тревога", 3/5), ("Сожаление", 2/5)]

/-- Weight lookup with the fallback `0.5` for states absent from the table
(`ai_mind2.py` line 299). -/
def urgencyWeight (s : String) : ℚ :=
  (urgency_weights.lookup s).getD (1/2)

/-- `calculate_pressure` (`ai_mind2.py` lines 292-302): accumulate
`activation * weight` over the store, then cap at `1`. -/
def calculate_pressure (m : Store) : ℚ :=
  min (m.foldl (fun acc p => acc + p.2 * urgencyWeight p.1) 0) 1

/-- The `trigger_nodes` list of `ai_mind2.py` line 36. -/
def trigger_nodes : List String :=
  ["Уточнение", "Вывод", "Признание", "Гнев", "Сомнение"]

/-- `reduce_weights_after_response` (`ai_mind2.py` lines 333-348): trigger
states are multiplied by `0.4`, others by `0.7`; entries below `0.1` are
deleted. -/
def reduce_weights_after_response (m : Store) : Store :=
  (m.map (fun p =>
      (p.1, p.2 * (if trigger_nodes.contains p.1 then 2/5 else 7/10)))).filter
    (fun p => decide (1/10 ≤ p.2))

/-- A short-term-memory entry (`ai_mind2.py` lines 354-358). -/
structure MemEntry where
  states : Store
  empathyTarget : List String
  timestamp : Nat
  deriving Repr, DecidableEq

/-- `archive_current_state` (`ai_mind2.py` lines 350-363): filter the store
to entries above the significance threshold `0.3`; if any remain, append a
memory entry, and if the archive then exceeds 5 entries pop index 0. -/
def archive_current_state (mem : List MemEntry) (nodes : Store)
    (empathyTarget : List String) (timestamp : Nat) : List MemEntry :=
  let significant := nodes.filter (fun p => decide (p.2 > 3/10))
  if significant.isEmpty then mem
  else
    let mem2 := mem ++ [⟨significant, empathyTarget, timestamp⟩]
    if mem2.length > 5 then mem2.drop 1 else mem2

/-- The store pipeline of one processed turn in `process_message`
(`ai_mind2.py` lines 438-449): the classifier-driven
`update_activation` (which ends with the inline ambient decay) followed by
`propagate_activation(iterations=3)`. -/
def processTurnStore (tree : List StateDef) (m : Store)
    (toActivate toIncrease : List String) : Store :=
  propagateN tree 3 (update_activation tree m toActivate toIncrease)

/-! ### `ai_mind3.py`: `EmotionalMindV3` -/

/-- `self.states_dict[s]` (`ai_mind3.py` line 44): name-keyed access to the
state definitions. -/
def dictLookup (tree : List StateDef) (s : String) : Option StateDef :=
  tree.find? (·.name == s)

/-- Python `set.add`: append the element unless already present (a set of
strings modelled as a duplicate-free list). -/
def insertU (l : List String) (x : String) : List String :=
  if l.contains x then l else l ++ [x]

/-- Python `set.update`: add every element of `r` to `l`. -/
def unionU (l r : List String) : List String :=
  r.foldl insertU l

/-- The loop body of `_get_parent_states` (`ai_mind3.py` lines 74-79): walk
the `условия` list accumulating the `parents` set; every condition that is
a known state is added together with the recursively computed parents of
that condition.  `rec` is the recursive call at the remaining recursion
depth. -/
def gpsAux (tree : List StateDef) (rec : String → Option (List String)) :
    List String → List String → Option (List String)
  | acc, [] => some acc
  | acc, c :: cs =>
    if (dictLookup tree c).isSome then
      match rec c with
      | some p => gpsAux tree rec (unionU (insertU acc c) p) cs
      | none => none
    else gpsAux tree rec acc cs

/-- `_get_parent_states` (`ai_mind3.py` lines 67-81).  The Python function
is unboundedly recursive with no cycle protection, so the embedding takes a
recursion-depth budget: `none` means the budget is exhausted, i.e. the
Python recursion would still be running at that depth. -/
def getParentStates (tree : List StateDef) : Nat → String → Option (List String)
  | 0, _ => none
  | n + 1, s =>
    match dictLookup tree s with
    | none => some []
    | some st => gpsAux tree (getParentStates tree n) [] st.conds

/-- The `условия` list of a state (empty for an unknown state). -/
def condsOf (tree : List StateDef) (s : String) : List String :=
  ((dictLookup tree s).map (·.conds)).getD []

/-- A single condition (child → parent) edge that `_get_parent_states`
follows: `c` is listed in the `условия` of `s` and is itself a known
state. -/
def EdgeTo (tree : List StateDef) (s c : String) : Prop :=
  c ∈ condsOf tree s ∧ (dictLookup tree c).isSome

/-- `t` is a transitive ancestor of `s`: reachable from `s` by one or more
condition edges. -/
def Ancestor (tree : List StateDef) (s t : String) : Prop :=
  Relation.TransGen (EdgeTo tree) s t

/-- `increase_state_weight` (`ai_mind3.py` lines 83-99): a no-op for a name
absent from `state_weights`; otherwise the state itself gains `amount`
(capped at `1`) and every computed parent gains `amount * 0.5` (capped at
`1`).  The result is `none` when the parent computation exhausts its
recursion budget. -/
def increase_state_weight (tree : List StateDef) (w : Store) (s : String)
    (amount : ℚ) (fuel : Nat) : Option Store :=
  if (w.lookup s).isNone then some w
  else
    (getParentStates tree fuel s).map (fun P =>
      P.foldl (fun acc p => setK acc p (min 1 (getA acc p + amount * (1/2))))
        (setK w s (min 1 (getA w s + amount))))

/-- `decrease_state_weight` (`ai_mind3.py` lines 101-106). -/
def decrease_state_weight (w : Store) (s : String) (amount : ℚ) : Store :=
  if (w.lookup s).isNone then w
  else setK w s (max 0 (getA w s - amount))

/-- `self.spontaneous_threshold` (`ai_mind3.py` line 59). -/
def spontaneous_threshold : ℚ := 1

/-- `get_triggered_states` (`ai_mind3.py` lines 117-119): all states whose
weight is `≥ spontaneous_threshold`. -/
def get_triggered_states (w : Store) : List String :=
  (w.filter (fun p => decide (p.2 ≥ spontaneous_threshold))).map (·.1)

/-! ### Loading the state tree -/

/-- A parsed `mind1.json`-style document: top-level string keys mapping to
lists of state definitions. -/
abbrev MindDoc := List (String × List StateDef)

/-- The error raised at load time when the document lacks the required
top-level key (a `KeyError` in `ai_mind3.py`). -/
inductive ConfigError
  | missingKey
  deriving Repr, DecidableEq

/-- The tree-loading expression of `ai_mind2.py` line 24:
`mind_data.get("состояния", mind_data.get("технологии", []))`. -/
def loadStatesV2 (doc : MindDoc) : List StateDef :=
  (doc.lookup "состояния").getD ((doc.lookup "технологии").getD [])

/-- The tree-loading expression of `ai_mind3.py` line 41:
`mind_data["состояния"]`, which raises `KeyError` when the key is absent. -/
def loadStatesV3 (doc : MindDoc) : Except ConfigError (List StateDef) :=
  match doc.lookup "состояния" with
  | some v => Except.ok v
  | none => Except.error ConfigError.missingKey

/-- The test tree of `src/experiments/test_state_propagation.py` lines
8-14 (also the end-to-end scenario graph of the spec, §8). -/
def testTree : List StateDef :=
  [⟨"Пустота", [], some 0⟩,
   ⟨"Тревога", ["Пустота"], some 0⟩,
   ⟨"Гнев", ["Тревога"], some 0⟩,
   ⟨"Объективизация", ["Гнев"], some 0⟩,
   ⟨"Сомнение", ["Тревога"], some 0⟩]

/-- A two-state condition cycle: `Гнев` lists `Тревога` as a condition and
vice versa (nothing in loading rejects such a document). -/
def cyclicTree : List StateDef :=
  [⟨"Гнев", ["Тревога"], none⟩, ⟨"Тревога", ["Гнев"], none⟩]

/-! ### Association-list lemmas -/

theorem lookup_cons {β : Type} (a k : String) (b : β) (es : List (String × β)) :
    List.lookup a ((k, b) :: es) = if a = k then some b else List.lookup a es := by
  by_cases h : a = k
  · simp [List.lookup, h]
  · simp [List.lookup, h, beq_false_of_ne h]

theorem lookup_map_overwrite (m : Store) (k : String) (v : ℚ) (h : (m.lookup k).isSome) :
    (m.map (fun p => if p.1 = k then (k, v) else p)).lookup k = some v := by
  induction m with
  | nil => simp [List.lookup] at h
  | cons a m ih =>
    by_cases hak : a.1 = k
    · simp [hak, lookup_cons]
    · have h' : (m.lookup k).isSome := by
        rw [show a = (a.1, a.2) from rfl, lookup_cons] at h
        simpa [Ne.symm hak] using h
      simp only [List.map_cons, if_neg hak]
      rw [show a = (a.1, a.2) from rfl, lookup_cons, if_neg (Ne.symm hak)]
      exact ih h'

theorem lookup_append_single (m : Store) (k : String) (v : ℚ) (h : m.lookup k = none) :
    (m ++ [(k, v)]).lookup k = some v := by
  induction m with
  | nil => simp [List.lookup]
  | cons a m ih =>
    rw [show a = (a.1, a.2) from rfl, lookup_cons] at h
    by_cases hak : k = a.1
    · simp [hak] at h
    · rw [List.cons_append, show a = (a.1, a.2) from rfl, lookup_cons, if_neg hak]
      exact ih (by simpa [hak] using h)

theorem lookup_setK_self (m : Store) (k : String) (v : ℚ) :
    (setK m k v).lookup k = some v := by
  unfold setK
  by_cases h : (m.lookup k).isSome
  · rw [if_pos h]
    exact lookup_map_overwrite m k v h
  · rw [if_neg h]
    exact lookup_append_single m k v (Option.not_isSome_iff_eq_none.mp h)

theorem lookup_map_ne (m : Store) (k k' : String) (v : ℚ) (h : k' ≠ k) :
    (m.map (fun p => if p.1 = k then (k, v) else p)).lookup k' = m.lookup k' := by
  induction m with
  | nil => simp
  | cons a m ih =>
    by_cases hak : a.1 = k
    · rw [show a = (a.1, a.2) from rfl]
      simp only [List.map_cons, if_pos hak, hak]
      rw [lookup_cons, lookup_cons, if_neg h, if_neg (hak ▸ h)]
      exact ih
    · rw [show a = (a.1, a.2) from rfl]
      simp only [List.map_cons, if_neg hak]
      rw [lookup_cons, lookup_cons]
      by_cases hk'a : k' = a.1
      · simp [hk'a]
      · rw [if_neg hk'a, if_neg hk'a]
        exact ih

theorem lookup_append_ne (m : Store) (k k' : String) (v : ℚ) (h : k' ≠ k) :
    (m ++ [(k, v)]).lookup k' = m.lookup k' := by
  induction m with
  | nil => simp [List.lookup, beq_false_of_ne h]
  | cons a m ih =>
    rw [List.cons_append, show a = (a.1, a.2) from rfl, lookup_cons, lookup_cons]
    by_cases hk'a : k' = a.1
    · simp [hk'a]
    · rw [if_neg hk'a, if_neg hk'a]
      exact ih

theorem lookup_setK_ne (m : Store) (k k' : String) (v : ℚ) (h : k' ≠ k) :
    (setK m k v).lookup k' = m.lookup k' := by
  unfold setK
  by_cases hs : (m.lookup k).isSome
  · rw [if_pos hs]
    exact lookup_map_ne m k k' v h
  · rw [if_neg hs]
    exact lookup_append_ne m k k' v h

theorem mem_of_lookup {β : Type} {m : List (String × β)} {k : String} {v : β}
    (h : m.lookup k = some v) : (k, v) ∈ m := by
  induction m with
  | nil => simp [List.lookup] at h
  | cons a m ih =>
    rw [show a = (a.1, a.2) from rfl, lookup_cons] at h
    by_cases hk : k = a.1
    · rw [if_pos hk] at h
      rw [show a = (a.1, a.2) from rfl, ← hk]
      simp at h
      simp [h]
    · exact List.mem_cons_of_mem _ (ih (by simpa [hk] using h))

/-! ### The store invariant -/

/-- Every value held in the store lies in `[0, 1]`. -/
def InRange (m : Store) : Prop :=
  ∀ p ∈ m, 0 ≤ p.2 ∧ p.2 ≤ 1

instance (m : Store) : Decidable (InRange m) := by
  unfold InRange
  infer_instance

theorem InRange.getA {m : Store} (h : InRange m) (k : String) :
    0 ≤ getA m k ∧ getA m k ≤ 1 := by
  unfold AiMind.getA
  cases hl : m.lookup k with
  | none => simp
  | some v => simpa using h _ (mem_of_lookup hl)

theorem InRange.setK {m : Store} (h : InRange m) {v : ℚ} (hv : 0 ≤ v ∧ v ≤ 1)
    (k : String) : InRange (setK m k v) := by
  unfold AiMind.setK
  split
  · intro p hp
    rcases List.mem_map.mp hp with ⟨q, hq, rfl⟩
    by_cases hqk : q.1 = k
    · simpa [hqk] using hv
    · simpa [hqk] using h q hq
  · intro p hp
    rcases List.mem_append.mp hp with hp | hp
    · exact h p hp
    · simp at hp
      simpa [hp] using hv

/-! ### C6: pressure -/

theorem foldl_add_mul (l : Store) (c : ℚ) :
    l.foldl (fun acc p => acc + p.2 * urgencyWeight p.1) c
      = c + (l.map (fun p => p.2 * urgencyWeight p.1)).sum := by
  induction l generalizing c with
  | nil => simp
  | cons a l ih => simp [ih, add_assoc]

/-- Claim C6: for every activation store, `calculate_pressure` equals
`min(1, Σ activation * urgency_weight)`, with the fallback weight `0.5` for
states absent from the `urgency_weights` table; in particular the store
`{Гнев: 0.8}` yields pressure `0.72`. -/
theorem pressure_is_capped_weighted_sum :
    (∀ m : Store, calculate_pressure m
      = min 1 ((m.map (fun p => p.2 * urgencyWeight p.1)).sum)) ∧
    (∀ s : String, urgency_weights.lookup s = none → urgencyWeight s = 1/2) ∧
    calculate_pressure [("Гнев", 4/5)] = 72/100 := by
  refine ⟨fun m => ?_, fun s hs => ?_, ?_⟩
  · rw [calculate_pressure, foldl_add_mul, zero_add, min_comm]
  · rw [urgencyWeight, hs]
    rfl
  · norm_num [calculate_pressure, urgencyWeight, urgency_weights, List.lookup]

/-- Witness for C6: a state name absent from the table gets weight `0.5`. -/
theorem pressure_is_capped_weighted_sum_witness :
    urgencyWeight "Одиночество" = 1/2 :=
  pressure_is_capped_weighted_sum.2.1 "Одиночество" (by simp [urgency_weights, List.lookup])

/-! ### C7: spontaneous-firing threshold -/

/-- Claim C7: spontaneous firing is reported exactly for states whose
weight reaches the saturation threshold `1.0`: a store in which every
weight is strictly below `1` triggers nothing, while any state held at `1`
(or above) is reported; at the boundary, `0.999` does not trigger and `1.0`
does. -/
theorem spontaneous_trigger_iff_saturated :
    (∀ w : Store, (∀ p ∈ w, p.2 < 1) → get_triggered_states w = []) ∧
    (∀ (w : Store) (s : String) (v : ℚ), (s, v) ∈ w → 1 ≤ v →
      s ∈ get_triggered_states w) ∧
    get_triggered_states [("Гнев", 999/1000)] = [] ∧
    get_triggered_states [("Гнев", 1)] = ["Гнев"] := by
  refine ⟨fun w hw => ?_, fun w s v hm hv => ?_, ?_, ?_⟩
  · rw [get_triggered_states]
    have : w.filter (fun p => decide (p.2 ≥ spontaneous_threshold)) = [] := by
      rw [List.filter_eq_nil_iff]
      intro p hp
      simp [spontaneous_threshold]
      exact hw p hp
    rw [this, List.map_nil]
  · rw [get_triggered_states]
    exact List.mem_map.mpr ⟨(s, v), List.mem_filter.mpr ⟨hm, by
      simpa [spontaneous_threshold] using hv⟩, rfl⟩
  · simp [get_triggered_states, spontaneous_threshold]
    norm_num
  · simp [get_triggered_states, spontaneous_threshold]

/-- Witness for C7: `0.999` does not trigger, `1.0` does. -/
theorem spontaneous_trigger_iff_saturated_witness :
    get_triggered_states [("Гнев", 999/1000)] = [] ∧
    "Гнев" ∈ get_triggered_states [("Гнев", 1)] :=
  ⟨spontaneous_trigger_iff_saturated.1 [("Гнев", 999/1000)] (by
      intro p hp
      simp at hp
      rw [hp]
      norm_num),
   spontaneous_trigger_iff_saturated.2.1 [("Гнев", 1)] "Гнев" 1 (by simp) le_rfl⟩

/-! ### C8: bounded FIFO memory archive -/

/-- One `record` call of the memory archive, as invoked once per responding
turn by `process_message`. -/
def recordStep (mem : List MemEntry) (args : Store × List String × Nat) :
    List MemEntry :=
  archive_current_state mem args.1 args.2.1 args.2.2

theorem archive_length_le (mem : List MemEntry) (nodes : Store)
    (et : List String) (t : Nat) (h : mem.length ≤ 5) :
    (archive_current_state mem nodes et t).length ≤ 5 := by
  rw [archive_current_state]
  split
  · exact h
  · dsimp only
    split
    · rename_i hgt
      simp only [List.length_append, List.length_cons, List.length_nil] at hgt ⊢
      simp only [List.length_drop, List.length_append, List.length_cons, List.length_nil]
      omega
    · rename_i hle
      simp only [List.length_append, List.length_cons, List.length_nil] at hle ⊢
      omega

/-- Claim C8: starting from the empty archive, no sequence of `record`
operations ever leaves more than 5 entries, and a `record` performed on a
full archive (5 entries) that stores a snapshot evicts exactly the entry at
index 0 (the oldest), appending the new entry at the back. -/
theorem archive_bounded_fifo :
    (∀ ops : List (Store × List String × Nat),
      (ops.foldl recordStep []).length ≤ 5) ∧
    (∀ (mem : List MemEntry) (nodes : Store) (et : List String) (t : Nat),
      mem.length = 5 →
      nodes.filter (fun p => decide (p.2 > 3/10)) ≠ [] →
      archive_current_state mem nodes et t
        = mem.drop 1 ++ [⟨nodes.filter (fun p => decide (p.2 > 3/10)), et, t⟩]) := by
  constructor
  · have step : ∀ (ops : List (Store × List String × Nat)) (mem : List MemEntry),
        mem.length ≤ 5 → (ops.foldl recordStep mem).length ≤ 5 := by
      intro ops
      induction ops with
      | nil => intro mem h; exact h
      | cons a ops ih =>
        intro mem h
        exact ih _ (archive_length_le mem a.1 a.2.1 a.2.2 h)
    exact fun ops => step ops [] (by simp)
  · intro mem nodes et t hlen hsig
    rw [archive_current_state]
    rw [if_neg (by simpa [List.isEmpty_iff] using hsig)]
    rw [if_pos (by simp [hlen])]
    rw [List.drop_append_of_le_length (by omega)]

/-- Witness for C8: recording on a full 5-entry archive drops entry 0. -/
theorem archive_bounded_fifo_witness :
    archive_current_state
        [⟨[], [], 0⟩, ⟨[], [], 1⟩, ⟨[], [], 2⟩, ⟨[], [], 3⟩, ⟨[], [], 4⟩]
        [("Гнев", 2/5)] [] 5
      = [⟨[], [], 1⟩, ⟨[], [], 2⟩, ⟨[], [], 3⟩, ⟨[], [], 4⟩,
         ⟨[("Гнев", 2/5)], [], 5⟩] := by
  have := archive_bounded_fifo.2
    [⟨[], [], 0⟩, ⟨[], [], 1⟩, ⟨[], [], 2⟩, ⟨[], [], 3⟩, ⟨[], [], 4⟩]
    [("Гнев", 2/5)] [] 5 (by simp)
    (by simp [List.filter_cons]; norm_num)
  rw [this]
  simp [List.filter_cons]
  norm_num

/-! ### C3: loading with a missing top-level key -/

/-- Claim C3 (counterexample): the `EmotionalMind` (v2) loader applied to a
document without the expected top-level key does not fail — it silently
produces the empty state list and the constructor continues. -/
theorem loadV2_missing_key_counterexample :
    loadStatesV2 [("другое", [⟨"Гнев", [], none⟩])] = [] := by
  simp [loadStatesV2, List.lookup]

/-- Claim C3 (amended): the v3 loader fails with an error when the key
`состояния` is absent and returns the stored list when present; the v2
loader never fails — with `состояния` absent it falls back to the legacy
key `технологии` and otherwise to the empty list. -/
theorem load_missing_key_behavior :
    (∀ doc : MindDoc, doc.lookup "состояния" = none →
      loadStatesV3 doc = Except.error ConfigError.missingKey) ∧
    (∀ (doc : MindDoc) (v : List StateDef), doc.lookup "состояния" = some v →
      loadStatesV3 doc = Except.ok v) ∧
    (∀ doc : MindDoc, doc.lookup "состояния" = none →
      doc.lookup "технологии" = none → loadStatesV2 doc = []) := by
  refine ⟨fun doc h => ?_, fun doc v h => ?_, fun doc h1 h2 => ?_⟩
  · rw [loadStatesV3, h]
  · rw [loadStatesV3, h]
  · rw [loadStatesV2, h1, h2]
    rfl

/-- Witness for C3 (amended): a keyless document makes the v3 loader fail
while the v2 loader silently yields the empty graph. -/
theorem load_missing_key_behavior_witness :
    loadStatesV3 [("другое", [⟨"Гнев", [], none⟩])]
        = Except.error ConfigError.missingKey ∧
    loadStatesV2 [] = [] :=
  ⟨load_missing_key_behavior.1 _ (by simp [List.lookup]),
   load_missing_key_behavior.2.2 [] (by simp [List.lookup]) (by simp [List.lookup])⟩

/-! ### C5: the end-to-end propagation scenario -/

theorem c5_nA1 : newActivations testTree [("Тревога", 4/5)]
    = [("Гнев", 2/5), ("Сомнение", 2/5)] := by
  simp [newActivations, find_children, testTree, setK, List.lookup, List.filter_cons, min_def]
  norm_num

theorem c5_app1 : applyActivations [("Тревога", 4/5)] [("Гнев", 2/5), ("Сомнение", 2/5)]
    = [("Тревога", 4/5), ("Гнев", 2/5), ("Сомнение", 2/5)] := by
  simp [applyActivations, applyStep, setK, List.lookup, min_def]
  try norm_num
  try simp [List.lookup]
  try norm_num

theorem c5_it1 : propagateIter testTree [("Тревога", 4/5)]
    = [("Тревога", 4/5), ("Гнев", 2/5), ("Сомнение", 2/5)] := by
  rw [propagateIter, c5_nA1]
  exact c5_app1

theorem c5_nA2 : newActivations testTree [("Тревога", 4/5), ("Гнев", 2/5), ("Сомнение", 2/5)]
    = [("Гнев", 2/5), ("Сомнение", 2/5), ("Объективизация", 1/5)] := by
  simp [newActivations, find_children, testTree, setK, List.lookup, List.filter_cons, min_def]
  try norm_num
  try simp [List.lookup]
  try norm_num

theorem c5_app2 : applyActivations [("Тревога", 4/5), ("Гнев", 2/5), ("Сомнение", 2/5)]
      [("Гнев", 2/5), ("Сомнение", 2/5), ("Объективизация", 1/5)]
    = [("Тревога", 4/5), ("Гнев", 4/5), ("Сомнение", 4/5)] := by
  simp [applyActivations, applyStep, setK, List.lookup, min_def]
  try norm_num
  try simp [List.lookup]
  try norm_num

theorem c5_it2 : propagateIter testTree [("Тревога", 4/5), ("Гнев", 2/5), ("Сомнение", 2/5)]
    = [("Тревога", 4/5), ("Гнев", 4/5), ("Сомнение", 4/5)] := by
  rw [propagateIter, c5_nA2]
  exact c5_app2

theorem c5_nA3 : newActivations testTree [("Тревога", 4/5), ("Гнев", 4/5), ("Сомнение", 4/5)]
    = [("Гнев", 2/5), ("Сомнение", 2/5), ("Объективизация", 2/5)] := by
  simp [newActivations, find_children, testTree, setK, List.lookup, List.filter_cons, min_def]
  try norm_num
  try simp [List.lookup]
  try norm_num

theorem c5_app3 : applyActivations [("Тревога", 4/5), ("Гнев", 4/5), ("Сомнение", 4/5)]
      [("Гнев", 2/5), ("Сомнение", 2/5), ("Объективизация", 2/5)]
    = [("Тревога", 4/5), ("Гнев", 1), ("Сомнение", 1), ("Объективизация", 2/5)] := by
  simp [applyActivations, applyStep, setK, List.lookup, min_def]
  try norm_num
  try simp [List.lookup]
  try norm_num

theorem c5_it3 : propagateIter testTree [("Тревога", 4/5), ("Гнев", 4/5), ("Сомнение", 4/5)]
    = [("Тревога", 4/5), ("Гнев", 1), ("Сомнение", 1), ("Объективизация", 2/5)] := by
  rw [propagateIter, c5_nA3]
  exact c5_app3

/-- Claim C5: on the experiment graph (`Тревога ← Пустота`,
`Гнев ← Тревога`, `Объективизация ← Гнев`, `Сомнение ← Тревога`), starting
from `{Тревога: 0.8}`, three propagation iterations (each reading the store
updated by the previous one) leave both `Гнев` and `Сомнение` with non-zero
activation. -/
theorem propagation_scenario_nonzero :
    propagateN testTree 3 [("Тревога", 4/5)]
      = [("Тревога", 4/5), ("Гнев", 1), ("Сомнение", 1), ("Объективизация", 2/5)] ∧
    getA (propagateN testTree 3 [("Тревога", 4/5)]) "Гнев" ≠ 0 ∧
    getA (propagateN testTree 3 [("Тревога", 4/5)]) "Сомнение" ≠ 0 := by
  have h : propagateN testTree 3 [("Тревога", 4/5)]
      = [("Тревога", 4/5), ("Гнев", 1), ("Сомнение", 1), ("Объективизация", 2/5)] := by
    show propagateN testTree 2 (propagateIter testTree [("Тревога", 4/5)]) = _
    rw [c5_it1]
    show propagateN testTree 1 (propagateIter testTree _) = _
    rw [c5_it2]
    show propagateN testTree 0 (propagateIter testTree _) = _
    rw [c5_it3]
    rfl
  refine ⟨h, ?_, ?_⟩ <;> rw [h] <;> simp [getA, List.lookup]

/-! ### C4: the creation threshold for propagation -/

theorem lookup_eq_none_iff {β : Type} (m : List (String × β)) (k : String) :
    m.lookup k = none ↔ k ∉ m.map Prod.fst := by
  induction m with
  | nil => simp [List.lookup]
  | cons a m ih =>
    rw [show a = (a.1, a.2) from rfl, lookup_cons]
    by_cases hk : k = a.1
    · simp [hk]
    · simp [hk, ih]

/-- Keys of a store, in order. -/
def keysOf (m : Store) : List String :=
  m.map Prod.fst

theorem keysOf_setK (m : Store) (k : String) (v : ℚ) :
    keysOf (setK m k v) = if (m.lookup k).isSome then keysOf m else keysOf m ++ [k] := by
  unfold setK keysOf
  split
  · rw [List.map_map]
    exact List.map_congr_left (fun p _ => by by_cases h : p.1 = k <;> simp [h])
  · simp

theorem nodup_keys_setK {m : Store} (h : (keysOf m).Nodup) (k : String) (v : ℚ) :
    (keysOf (setK m k v)).Nodup := by
  rw [keysOf_setK]
  split
  · exact h
  · rename_i hn
    simp only [List.nodup_append, List.nodup_cons, List.nodup_nil]
    refine ⟨h, by simp, ?_⟩
    intro a ha hk
    simp at hk
    subst hk
    exact absurd ((lookup_eq_none_iff m a).mp (Option.not_isSome_iff_eq_none.mp hn)) (by
      simpa [keysOf] using ha)

theorem foldl_preserves {α β : Type} (P : α → Prop) (step : α → β → α)
    (h : ∀ acc x, P acc → P (step acc x)) :
    ∀ (l : List β) (init : α), P init → P (l.foldl step init) := by
  intro l
  induction l with
  | nil => intro init hi; exact hi
  | cons x l ih => intro init hi; exact ih _ (h init x hi)

theorem nodup_keys_newActivations (tree : List StateDef) (m : Store) :
    (keysOf (newActivations tree m)).Nodup := by
  rw [newActivations]
  refine foldl_preserves (fun acc => (keysOf acc).Nodup) _ ?_ m [] (by simp [keysOf])
  intro acc p hacc
  split
  · exact hacc
  · refine foldl_preserves (fun acc2 => (keysOf acc2).Nodup) _ ?_ _ acc hacc
    intro acc2 child h2
    split
    · exact nodup_keys_setK h2 _ _
    · exact nodup_keys_setK h2 _ _

theorem applyStep_lookup_ne (m : Store) (p : String × ℚ) (s : String)
    (hps : s ≠ p.1) : (applyStep m p).lookup s = m.lookup s := by
  rw [applyStep]
  split
  · exact lookup_setK_ne _ _ _ _ hps
  · split
    · exact lookup_setK_ne _ _ _ _ hps
    · rfl

theorem applyActivations_cons (m : Store) (p : String × ℚ) (acts : Store) :
    applyActivations m (p :: acts) = applyActivations (applyStep m p) acts :=
  rfl

theorem applyActivations_lookup_notin (m : Store) (acts : Store) (s : String)
    (h : s ∉ keysOf acts) :
    (applyActivations m acts).lookup s = m.lookup s := by
  induction acts generalizing m with
  | nil => rfl
  | cons p acts ih =>
    have hps : s ≠ p.1 := by
      intro hs
      exact h (by simp [keysOf, hs])
    have htail : s ∉ keysOf acts := fun hs => h (by simp [keysOf] at hs ⊢; exact Or.inr hs)
    rw [applyActivations_cons, ih _ htail, applyStep_lookup_ne _ _ _ hps]

theorem applyActivations_creation (acts : Store) (s : String)
    (hnd : (keysOf acts).Nodup) :
    ∀ m : Store, m.lookup s = none →
      (((applyActivations m acts).lookup s).isSome
        ↔ ∃ v, acts.lookup s = some v ∧ v > 1/5) := by
  induction acts with
  | nil =>
    intro m hm
    rw [applyActivations]
    simp [List.lookup, hm]
  | cons p acts ih =>
    intro m hm
    simp only [keysOf, List.map_cons, List.nodup_cons] at hnd
    have hnd' : (keysOf acts).Nodup := hnd.2
    rw [applyActivations_cons]
    by_cases hps : s = p.1
    · have hnotin : s ∉ keysOf acts := by
        rw [hps]
        exact hnd.1
      rw [applyActivations_lookup_notin _ _ _ hnotin]
      rw [lookup_cons, if_pos hps]
      rw [applyStep, ← hps]
      simp only [hm]
      split
      · rename_i hgt
        rw [lookup_setK_self]
        simpa using hgt
      · rename_i hle
        rw [hm]
        simpa using hle
    · rw [lookup_cons, if_neg hps]
      exact ih hnd' _ (by rw [applyStep_lookup_ne _ _ _ hps]; exact hm)

/-- The two-state example graph of the spec's creation-threshold property:
a child `C` whose sole parent is `P`. -/
def soloTree : List StateDef :=
  [⟨"P", [], none⟩, ⟨"C", ["P"], none⟩]

/-- Claim C4: during one propagation iteration a state absent from the
store is created exactly when its accumulated influence strictly exceeds
the creation threshold `0.2`; in particular a sole parent at `0.3` (with
hop decay `0.5`, influence `0.15`) creates nothing — the store is
unchanged. -/
theorem propagation_creation_threshold :
    (∀ (tree : List StateDef) (m : Store) (s : String), m.lookup s = none →
      (((propagateIter tree m).lookup s).isSome
        ↔ ∃ v, (newActivations tree m).lookup s = some v ∧ v > 1/5)) ∧
    propagateIter soloTree [("P", 3/10)] = [("P", 3/10)] := by
  constructor
  · intro tree m s hm
    rw [propagateIter]
    exact applyActivations_creation _ s (nodup_keys_newActivations tree m) m hm
  · have hnA : newActivations soloTree [("P", 3/10)] = [("C", 3/20)] := by
      simp [newActivations, find_children, soloTree, setK, List.lookup, List.filter_cons]
      norm_num
    rw [propagateIter, hnA]
    simp [applyActivations, applyStep, setK, List.lookup]
    try norm_num
    try simp [applyActivations, applyStep, setK, List.lookup]
    try norm_num

/-- Witness for C4: instantiating the threshold characterisation at the
sole-parent example, where the accumulated influence is `0.15 ≤ 0.2`. -/
theorem propagation_creation_threshold_witness :
    ((propagateIter soloTree [("P", 3/10)]).lookup "C").isSome
      ↔ ∃ v, (newActivations soloTree [("P", 3/10)]).lookup "C" = some v ∧ v > 1/5 :=
  propagation_creation_threshold.1 soloTree [("P", 3/10)] "C" (by simp [List.lookup])

/-! ### C2: ancestor resolution on a cyclic graph -/

/-- Claim C2: the claim asserts that ancestor resolution terminates on
every graph, including cyclic ones.  On the two-state cycle
`Гнев ⇄ Тревога` the embedded `_get_parent_states` returns no result at
any recursion depth: the Python original recurses forever (it has no
visited-set protection), so the claimed termination fails on the code. -/
theorem getParentStates_cyclic_diverges :
    ∀ n : Nat, getParentStates cyclicTree n "Гнев" = none ∧
      getParentStates cyclicTree n "Тревога" = none := by
  intro n
  induction n with
  | zero => exact ⟨rfl, rfl⟩
  | succ n ih =>
    have hd1 : dictLookup cyclicTree "Гнев" = some ⟨"Гнев", ["Тревога"], none⟩ := by
      simp [dictLookup, cyclicTree, List.find?]
    have hd2 : dictLookup cyclicTree "Тревога" = some ⟨"Тревога", ["Гнев"], none⟩ := by
      simp [dictLookup, cyclicTree, List.find?]
    constructor
    · rw [getParentStates, hd1]
      show gpsAux cyclicTree (getParentStates cyclicTree n) [] ["Тревога"] = none
      rw [gpsAux, if_pos (by rw [hd2]; rfl), ih.2]
    · rw [getParentStates, hd2]
      show gpsAux cyclicTree (getParentStates cyclicTree n) [] ["Гнев"] = none
      rw [gpsAux, if_pos (by rw [hd1]; rfl), ih.1]

/-! ### C9: where ambient decay happens inside a turn -/

theorem c9_core : updateActivationCore testTree [] ["Тревога"] [] = [("Тревога", 7/10)] := by
  simp [updateActivationCore, knownState, testTree, setK, List.lookup]

theorem c9_decay : decayAll (23/25) [("Тревога", 7/10)] = [("Тревога", 161/250)] := by
  simp only [decayAll, List.map_cons, List.map_nil, List.filter_cons, List.filter_nil,
    decide_eq_true_eq]
  norm_num

theorem c9_nA1 : newActivations testTree [("Тревога", 161/250)]
    = [("Гнев", 161/500), ("Сомнение", 161/500)] := by
  simp [newActivations, find_children, testTree, setK, List.lookup, List.filter_cons, min_def]
  try norm_num
  try simp [List.lookup]
  try norm_num

theorem c9_app1 : applyActivations [("Тревога", 161/250)]
      [("Гнев", 161/500), ("Сомнение", 161/500)]
    = [("Тревога", 161/250), ("Гнев", 161/500), ("Сомнение", 161/500)] := by
  simp [applyActivations, applyStep, setK, List.lookup, min_def]
  try norm_num
  try simp [List.lookup]
  try norm_num

theorem c9_it1 : propagateIter testTree [("Тревога", 161/250)]
    = [("Тревога", 161/250), ("Гнев", 161/500), ("Сомнение", 161/500)] := by
  rw [propagateIter, c9_nA1]
  exact c9_app1

theorem c9_nA2 : newActivations testTree
      [("Тревога", 161/250), ("Гнев", 161/500), ("Сомнение", 161/500)]
    = [("Гнев", 161/500), ("Сомнение", 161/500), ("Объективизация", 161/1000)] := by
  simp [newActivations, find_children, testTree, setK, List.lookup, List.filter_cons, min_def]
  try norm_num
  try simp [List.lookup]
  try norm_num

theorem c9_app2 : applyActivations
      [("Тревога", 161/250), ("Гнев", 161/500), ("Сомнение", 161/500)]
      [("Гнев", 161/500), ("Сомнение", 161/500), ("Объективизация", 161/1000)]
    = [("Тревога", 161/250), ("Гнев", 161/250), ("Сомнение", 161/250)] := by
  simp [applyActivations, applyStep, setK, List.lookup, min_def]
  try norm_num
  try simp [List.lookup]
  try norm_num

theorem c9_it2 : propagateIter testTree
      [("Тревога", 161/250), ("Гнев", 161/500), ("Сомнение", 161/500)]
    = [("Тревога", 161/250), ("Гнев", 161/250), ("Сомнение", 161/250)] := by
  rw [propagateIter, c9_nA2]
  exact c9_app2

theorem c9_nA3 : newActivations testTree
      [("Тревога", 161/250), ("Гнев", 161/250), ("Сомнение", 161/250)]
    = [("Гнев", 161/500), ("Сомнение", 161/500), ("Объективизация", 161/500)] := by
  simp [newActivations, find_children, testTree, setK, List.lookup, List.filter_cons, min_def]
  try norm_num
  try simp [List.lookup]
  try norm_num

theorem c9_app3 : applyActivations
      [("Тревога", 161/250), ("Гнев", 161/250), ("Сомнение", 161/250)]
      [("Гнев", 161/500), ("Сомнение", 161/500), ("Объективизация", 161/500)]
    = [("Тревога", 161/250), ("Гнев", 483/500), ("Сомнение", 483/500),
       ("Объективизация", 161/500)] := by
  simp [applyActivations, applyStep, setK, List.lookup, min_def]
  try norm_num
  try simp [List.lookup]
  try norm_num

theorem c9_it3 : propagateIter testTree
      [("Тревога", 161/250), ("Гнев", 161/250), ("Сомнение", 161/250)]
    = [("Тревога", 161/250), ("Гнев", 483/500), ("Сомнение", 483/500),
       ("Объективизация", 161/500)] := by
  rw [propagateIter, c9_nA3]
  exact c9_app3

theorem c9_code_result : processTurnStore testTree [] ["Тревога"] []
    = [("Тревога", 161/250), ("Гнев", 483/500), ("Сомнение", 483/500),
       ("Объективизация", 161/500)] := by
  rw [processTurnStore, update_activation, c9_core, c9_decay]
  show propagateN testTree 2 (propagateIter testTree _) = _
  rw [c9_it1]
  show propagateN testTree 1 (propagateIter testTree _) = _
  rw [c9_it2]
  show propagateN testTree 0 (propagateIter testTree _) = _
  rw [c9_it3]
  rfl

theorem c9_jt1 : propagateIter testTree [("Тревога", 7/10)]
    = [("Тревога", 7/10), ("Гнев", 7/20), ("Сомнение", 7/20)] := by
  have hnA : newActivations testTree [("Тревога", 7/10)]
      = [("Гнев", 7/20), ("Сомнение", 7/20)] := by
    simp [newActivations, find_children, testTree, setK, List.lookup, List.filter_cons, min_def]
    try norm_num
    try simp [List.lookup]
    try norm_num
  rw [propagateIter, hnA]
  simp [applyActivations, applyStep, setK, List.lookup, min_def]
  try norm_num
  try simp [List.lookup]
  try norm_num

theorem c9_jt2 : propagateIter testTree [("Тревога", 7/10), ("Гнев", 7/20), ("Сомнение", 7/20)]
    = [("Тревога", 7/10), ("Гнев", 7/10), ("Сомнение", 7/10)] := by
  have hnA : newActivations testTree [("Тревога", 7/10), ("Гнев", 7/20), ("Сомнение", 7/20)]
      = [("Гнев", 7/20), ("Сомнение", 7/20), ("Объективизация", 7/40)] := by
    simp [newActivations, find_children, testTree, setK, List.lookup, List.filter_cons, min_def]
    try norm_num
    try simp [List.lookup]
    try norm_num
  rw [propagateIter, hnA]
  simp [applyActivations, applyStep, setK, List.lookup, min_def]
  try norm_num
  try simp [List.lookup]
  try norm_num

theorem c9_jt3 : propagateIter testTree [("Тревога", 7/10), ("Гнев", 7/10), ("Сомнение", 7/10)]
    = [("Тревога", 7/10), ("Гнев", 1), ("Сомнение", 1), ("Объективизация", 7/20)] := by
  have hnA : newActivations testTree [("Тревога", 7/10), ("Гнев", 7/10), ("Сомнение", 7/10)]
      = [("Гнев", 7/20), ("Сомнение", 7/20), ("Объективизация", 7/20)] := by
    simp [newActivations, find_children, testTree, setK, List.lookup, List.filter_cons, min_def]
    try norm_num
    try simp [List.lookup]
    try norm_num
  rw [propagateIter, hnA]
  simp [applyActivations, applyStep, setK, List.lookup, min_def]
  try norm_num
  try simp [List.lookup]
  try norm_num

theorem c9_spec_result :
    decayAll (23/25) (propagateN testTree 3 (updateActivationCore testTree [] ["Тревога"] []))
    = [("Тревога", 161/250), ("Гнев", 23/25), ("Сомнение", 23/25),
       ("Объективизация", 161/500)] := by
  rw [c9_core]
  have h3 : propagateN testTree 3 [("Тревога", 7/10)]
      = [("Тревога", 7/10), ("Гнев", 1), ("Сомнение", 1), ("Объективизация", 7/20)] := by
    show propagateN testTree 2 (propagateIter testTree _) = _
    rw [c9_jt1]
    show propagateN testTree 1 (propagateIter testTree _) = _
    rw [c9_jt2]
    show propagateN testTree 0 (propagateIter testTree _) = _
    rw [c9_jt3]
    rfl
  rw [h3]
  simp only [decayAll, List.map_cons, List.map_nil, List.filter_cons, List.filter_nil,
    decide_eq_true_eq]
  norm_num

/-- Claim C9 (counterexample): the claim places ambient decay after both
the activation update and propagation.  On the turn that activates
`Тревога` from the empty store, the code's turn pipeline (decay inside
`update_activation`, before propagation) produces a different store than
the claimed decay-after-propagation ordering — `Гнев` ends at `0.966`
instead of `0.92`. -/
theorem decay_order_counterexample :
    processTurnStore testTree [] ["Тревога"] []
      ≠ decayAll (23/25)
          (propagateN testTree 3 (updateActivationCore testTree [] ["Тревога"] [])) := by
  intro h
  rw [c9_code_result, c9_spec_result] at h
  have h2 : (483 : ℚ)/500 = 23/25 := by
    have := congrArg (fun l => getA l "Гнев") h
    simpa [getA, List.lookup] using this
  norm_num at h2

/-- Claim C9 (amended): ambient decay runs exactly once per processed turn,
but as the final step of `update_activation` — after the classifier-driven
bumps, before `propagate_activation` — for every turn input. -/
theorem decay_once_after_update_before_propagation :
    ∀ (tree : List StateDef) (m : Store) (toActivate toIncrease : List String),
      processTurnStore tree m toActivate toIncrease
        = propagateN tree 3 (decayAll (23/25)
            (updateActivationCore tree m toActivate toIncrease)) := by
  intro tree m toActivate toIncrease
  rfl

/-! ### C1: activation values stay inside [0, 1] -/

theorem foldl_preserves_mem {α β : Type} (P : α → Prop) (step : α → β → α)
    (l : List β) (h : ∀ acc x, x ∈ l → P acc → P (step acc x)) :
    ∀ init : α, P init → P (l.foldl step init) := by
  induction l with
  | nil => intro init hi; exact hi
  | cons x l ih =>
    intro init hi
    exact ih (fun acc y hy => h acc y (List.mem_cons_of_mem _ hy))
      _ (h init x (List.mem_cons_self _ _) hi)

theorem InRange.filter (m : Store) (p : String × ℚ → Bool) (h : InRange m) :
    InRange (m.filter p) :=
  fun q hq => h q (List.mem_of_mem_filter hq)

theorem InRange.lookup_bounds {m : Store} (h : InRange m) {k : String} {v : ℚ}
    (hl : m.lookup k = some v) : 0 ≤ v ∧ v ≤ 1 :=
  h _ (mem_of_lookup hl)

theorem min_one_mem {v : ℚ} (hv : 0 ≤ v) : 0 ≤ min 1 v ∧ min 1 v ≤ 1 :=
  ⟨le_min (by norm_num) hv, min_le_left _ _⟩

theorem InRange.updateActivationCore {tree : List StateDef} {m : Store}
    (h : InRange m) (toActivate toIncrease : List String) :
    InRange (updateActivationCore tree m toActivate toIncrease) := by
  simp only [AiMind.updateActivationCore]
  refine foldl_preserves InRange _ ?_ toIncrease _
    (foldl_preserves InRange _ ?_ toActivate m h)
  · intro acc s hacc
    split
    · rename_i a hl
      exact hacc.setK (min_one_mem (by linarith [(hacc.lookup_bounds hl).1])) s
    · exact hacc
  · intro acc s hacc
    split
    · split
      · rename_i a hl
        exact hacc.setK (min_one_mem (by linarith [(hacc.lookup_bounds hl).1])) s
      · exact hacc.setK (show (0:ℚ) ≤ 7/10 ∧ (7/10:ℚ) ≤ 1 by norm_num) s
    · exact hacc

theorem InRange.decayAll {m : Store} (h : InRange m) {f : ℚ}
    (hf0 : 0 ≤ f) (hf1 : f ≤ 1) : InRange (decayAll f m) := by
  rw [AiMind.decayAll]
  refine InRange.filter _ _ ?_
  intro p hp
  rcases List.mem_map.mp hp with ⟨q, hq, rfl⟩
  have := h q hq
  constructor
  · exact mul_nonneg this.1 hf0
  · calc q.2 * f ≤ 1 * 1 := mul_le_mul this.2 hf1 hf0 (by norm_num)
    _ = 1 := by norm_num

theorem InRange.update_activation {tree : List StateDef} {m : Store}
    (h : InRange m) (toActivate toIncrease : List String) :
    InRange (update_activation tree m toActivate toIncrease) :=
  (h.updateActivationCore toActivate toIncrease).decayAll (by norm_num) (by norm_num)

theorem InRange.newActivations {tree : List StateDef} {m : Store} (h : InRange m) :
    InRange (newActivations tree m) := by
  rw [AiMind.newActivations]
  refine foldl_preserves_mem InRange _ m ?_ [] (by intro p hp; simp at hp)
  intro acc p hpm hacc
  split
  · exact hacc
  · refine foldl_preserves InRange _ ?_ _ acc hacc
    intro acc2 child h2
    have hp2 := h p hpm
    split
    · rename_i v hl
      refine h2.setK (min_one_mem ?_) child
      linarith [(h2.lookup_bounds hl).1, hp2.1]
    · exact h2.setK ⟨by linarith [hp2.1], by linarith [hp2.2]⟩ child

theorem InRange.applyActivations {m acts : Store} (h : InRange m)
    (hacts : InRange acts) : InRange (applyActivations m acts) := by
  rw [AiMind.applyActivations]
  refine foldl_preserves_mem InRange _ acts ?_ m h
  intro acc p hpm hacc
  rw [applyStep]
  have hp2 := hacts p hpm
  split
  · rename_i cur hl
    exact hacc.setK (min_one_mem (by linarith [(hacc.lookup_bounds hl).1, hp2.1])) p.1
  · split
    · exact hacc.setK hp2 p.1
    · exact hacc

theorem InRange.propagateIter {tree : List StateDef} {m : Store} (h : InRange m) :
    InRange (propagateIter tree m) :=
  h.applyActivations h.newActivations

theorem InRange.propagateN {tree : List StateDef} (n : Nat) :
    ∀ {m : Store}, InRange m → InRange (propagateN tree n m) := by
  induction n with
  | zero => intro m h; exact h
  | succ n ih => intro m h; exact ih h.propagateIter

theorem InRange.reduce_weights {m : Store} (h : InRange m) :
    InRange (reduce_weights_after_response m) := by
  rw [reduce_weights_after_response]
  refine InRange.filter _ _ ?_
  intro p hp
  rcases List.mem_map.mp hp with ⟨q, hq, rfl⟩
  have := h q hq
  constructor
  · dsimp only
    split
    · linarith [this.1]
    · linarith [this.1]
  · dsimp only
    split
    · linarith [this.2, this.1]
    · linarith [this.2, this.1]

/-- One engine operation on the activation store, as the claim enumerates
them: the classifier-driven `update_activation` (whose tail is the ambient
decay), `propagate_activation`, a standalone ambient decay pass, and the
post-response attenuation. -/
inductive EngineOp
  | update (toActivate toIncrease : List String)
  | propagate (iterations : Nat)
  | decay
  | attenuate

/-- Interpreting one engine operation on the store. -/
def applyOp (tree : List StateDef) (m : Store) : EngineOp → Store
  | .update a i => update_activation tree m a i
  | .propagate n => propagateN tree n m
  | .decay => decayAll (23/25) m
  | .attenuate => reduce_weights_after_response m

theorem InRange.increase_state_weight {tree : List StateDef} {w : Store}
    (h : InRange w) {s : String} {a : ℚ} (ha : 0 ≤ a) {fuel : Nat} {w' : Store}
    (hw' : increase_state_weight tree w s a fuel = some w') : InRange w' := by
  rw [AiMind.increase_state_weight] at hw'
  split at hw'
  · exact Option.some_injective _ hw' ▸ h
  · cases hg : getParentStates tree fuel s with
    | none => rw [hg] at hw'; simp at hw'
    | some P =>
      rw [hg] at hw'
      simp only [Option.map_some', Option.some_inj] at hw'
      rw [← hw']
      have h1 : InRange (AiMind.setK w s (min 1 (AiMind.getA w s + a))) :=
        h.setK (min_one_mem (by linarith [(h.getA s).1])) s
      refine foldl_preserves InRange _ ?_ P _ h1
      intro acc p hacc
      exact hacc.setK (min_one_mem (by linarith [(hacc.getA p).1])) p

theorem InRange.decrease_state_weight {w : Store} (h : InRange w)
    (s : String) {a : ℚ} (ha : 0 ≤ a) : InRange (decrease_state_weight w s a) := by
  rw [AiMind.decrease_state_weight]
  split
  · exact h
  · refine h.setK ⟨le_max_left _ _, ?_⟩ s
    have := h.getA s
    rw [max_le_iff]
    constructor
    · norm_num
    · linarith [this.2]

/-- Claim C1: starting from the empty session store, every sequence of
engine operations (activation update with its ambient decay, propagation,
standalone decay, post-response attenuation) leaves every stored activation
in `[0, 1]`; reading an absent state yields `0`; and the v3 weight table
operations `increase_state_weight` / `decrease_state_weight` (applied with
the engine's non-negative amounts) preserve the same bounds. -/
theorem activation_values_bounded :
    (∀ (tree : List StateDef) (ops : List EngineOp),
      InRange (ops.foldl (applyOp tree) [])) ∧
    (∀ (m : Store) (s : String), m.lookup s = none → getA m s = 0) ∧
    (∀ (tree : List StateDef) (w : Store) (s : String) (a : ℚ) (fuel : Nat) (w' : Store),
      InRange w → 0 ≤ a → increase_state_weight tree w s a fuel = some w' →
        InRange w') ∧
    (∀ (w : Store) (s : String) (a : ℚ), InRange w → 0 ≤ a →
      InRange (decrease_state_weight w s a)) := by
  refine ⟨fun tree ops => ?_, fun m s h => ?_, fun tree w s a fuel w' hw ha h => ?_,
    fun w s a hw ha => ?_⟩
  · refine foldl_preserves InRange _ ?_ ops [] (by intro p hp; simp at hp)
    intro acc op hacc
    cases op with
    | update a i => exact hacc.update_activation a i
    | propagate n => exact hacc.propagateN n
    | decay => exact hacc.decayAll (by norm_num) (by norm_num)
    | attenuate => exact hacc.reduce_weights
  · rw [getA, h]
    rfl
  · exact hw.increase_state_weight ha h
  · exact hw.decrease_state_weight s ha

theorem c1_increase_eval :
    increase_state_weight soloTree [("P", 1/2), ("C", 1/2)] "C" (1/5) 2
      = some [("P", 3/5), ("C", 7/10)] := by
  simp [increase_state_weight, getParentStates, gpsAux, dictLookup, soloTree,
    insertU, unionU, setK, getA, List.lookup, List.find?, min_def]
  try norm_num
  try simp [List.lookup]
  try norm_num

/-- Witness for C1: the three hypothesis-bearing parts instantiated — an
absent state reads `0`, a concrete `increase_state_weight` result stays in
range, and a concrete `decrease_state_weight` result stays in range. -/
theorem activation_values_bounded_witness :
    getA [] "Гнев" = 0 ∧
    InRange [("P", 3/5), ("C", 7/10)] ∧
    InRange (decrease_state_weight [("P", 1/2)] "P" (3/10)) := by
  have hin : InRange [("P", (1:ℚ)/2), ("C", (1:ℚ)/2)] := by
    intro p hp
    simp at hp
    rcases hp with h | h <;> rw [h] <;> norm_num
  refine ⟨activation_values_bounded.2.1 [] "Гнев" rfl, ?_, ?_⟩
  · exact activation_values_bounded.2.2.1 soloTree [("P", 1/2), ("C", 1/2)] "C" (1/5) 2
      [("P", 3/5), ("C", 7/10)] hin (by norm_num) c1_increase_eval
  · exact activation_values_bounded.2.2.2 [("P", 1/2)] "P" (3/10)
      (by intro p hp; simp at hp; rw [hp]; norm_num) (by norm_num)

/-! ### C10: `increase_state_weight` and transitive ancestors -/

theorem mem_insertU (l : List String) (c x : String) :
    x ∈ insertU l c ↔ x ∈ l ∨ x = c := by
  rw [insertU]
  split
  · rename_i hc
    have hcl : c ∈ l := List.elem_iff.mp hc
    constructor
    · exact Or.inl
    · rintro (h | rfl)
      · exact h
      · exact hcl
  · simp

theorem nodup_insertU {l : List String} (h : l.Nodup) (c : String) :
    (insertU l c).Nodup := by
  rw [insertU]
  split
  · exact h
  · rename_i hc
    simp only [List.nodup_append, List.nodup_cons, List.nodup_nil]
    exact ⟨h, by simp, by
      intro a ha hac
      simp at hac
      subst hac
      exact hc (List.elem_iff.mpr ha)⟩

theorem mem_unionU (r : List String) :
    ∀ (l : List String) (x : String), x ∈ unionU l r ↔ x ∈ l ∨ x ∈ r := by
  induction r with
  | nil => simp [unionU]
  | cons c r ih =>
    intro l x
    rw [show unionU l (c :: r) = unionU (insertU l c) r from rfl, ih, mem_insertU]
    simp
    tauto

theorem nodup_unionU (r : List String) :
    ∀ {l : List String}, l.Nodup → (unionU l r).Nodup := by
  induction r with
  | nil => intro l h; exact h
  | cons c r ih =>
    intro l h
    exact ih (nodup_insertU h c)

theorem gpsAux_props (tree : List StateDef) (rec : String → Option (List String)) :
    ∀ (cs acc P : List String), gpsAux tree rec acc cs = some P →
      (∀ x ∈ acc, x ∈ P) ∧
      (∀ c ∈ cs, (dictLookup tree c).isSome →
        c ∈ P ∧ ∃ p, rec c = some p ∧ ∀ x ∈ p, x ∈ P) := by
  intro cs
  induction cs with
  | nil =>
    intro acc P h
    rw [gpsAux] at h
    simp at h
    subst h
    exact ⟨fun x hx => hx, by simp⟩
  | cons c cs ih =>
    intro acc P h
    rw [gpsAux] at h
    split at h
    · rename_i hsome
      cases hrec : rec c with
      | none => rw [hrec] at h; simp at h
      | some p =>
        rw [hrec] at h
        obtain ⟨hA, hB⟩ := ih _ P h
        have hacc' : ∀ x, x ∈ unionU (insertU acc c) p ↔ (x ∈ acc ∨ x = c) ∨ x ∈ p := by
          intro x
          rw [mem_unionU, mem_insertU]
        refine ⟨fun x hx => hA x ((hacc' x).mpr (Or.inl (Or.inl hx))), ?_⟩
        intro d hd hdsome
        rcases List.mem_cons.mp hd with rfl | hd'
        · exact ⟨hA d ((hacc' d).mpr (Or.inl (Or.inr rfl))), p, hrec,
            fun x hx => hA x ((hacc' x).mpr (Or.inr hx))⟩
        · exact hB d hd' hdsome
    · rename_i hnone
      obtain ⟨hA, hB⟩ := ih _ P h
      refine ⟨hA, ?_⟩
      intro d hd hdsome
      rcases List.mem_cons.mp hd with rfl | hd'
      · exact absurd hdsome hnone
      · exact hB d hd' hdsome

theorem gpsAux_sound (tree : List StateDef) (rec : String → Option (List String)) :
    ∀ (cs acc P : List String), gpsAux tree rec acc cs = some P →
      ∀ t ∈ P, t ∈ acc ∨ ∃ c ∈ cs, (dictLookup tree c).isSome ∧
        (t = c ∨ ∃ p, rec c = some p ∧ t ∈ p) := by
  intro cs
  induction cs with
  | nil =>
    intro acc P h t ht
    rw [gpsAux] at h
    simp at h
    subst h
    exact Or.inl ht
  | cons c cs ih =>
    intro acc P h t ht
    rw [gpsAux] at h
    split at h
    · rename_i hsome
      cases hrec : rec c with
      | none => rw [hrec] at h; simp at h
      | some p =>
        rw [hrec] at h
        rcases ih _ P h t ht with hacc' | ⟨d, hd, hds, hrest⟩
        · rw [mem_unionU, mem_insertU] at hacc'
          rcases hacc' with (hx | rfl) | hx
          · exact Or.inl hx
          · exact Or.inr ⟨t, List.mem_cons_self _ _, hsome, Or.inl rfl⟩
          · exact Or.inr ⟨c, List.mem_cons_self _ _, hsome, Or.inr ⟨p, hrec, hx⟩⟩
        · exact Or.inr ⟨d, List.mem_cons_of_mem _ hd, hds, hrest⟩
    · rcases ih _ P h t ht with hx | ⟨d, hd, hds, hrest⟩
      · exact Or.inl hx
      · exact Or.inr ⟨d, List.mem_cons_of_mem _ hd, hds, hrest⟩

theorem gpsAux_nodup (tree : List StateDef) (rec : String → Option (List String)) :
    ∀ (cs acc P : List String), acc.Nodup → gpsAux tree rec acc cs = some P →
      P.Nodup := by
  intro cs
  induction cs with
  | nil =>
    intro acc P hacc h
    rw [gpsAux] at h
    simp at h
    exact h ▸ hacc
  | cons c cs ih =>
    intro acc P hacc h
    rw [gpsAux] at h
    split at h
    · cases hrec : rec c with
      | none => rw [hrec] at h; simp at h
      | some p =>
        rw [hrec] at h
        exact ih _ P (nodup_unionU p (nodup_insertU hacc c)) h
    · exact ih _ P hacc h

theorem gps_sound (tree : List StateDef) :
    ∀ (n : Nat) (s : String) (P : List String),
      getParentStates tree n s = some P → ∀ t ∈ P, Ancestor tree s t := by
  intro n
  induction n with
  | zero =>
    intro s P h
    rw [getParentStates] at h
    exact absurd h (by simp)
  | succ n ih =>
    intro s P h t ht
    rw [getParentStates] at h
    cases hd : dictLookup tree s with
    | none =>
      rw [hd] at h
      simp at h
      subst h
      simp at ht
    | some st =>
      rw [hd] at h
      rcases gpsAux_sound tree _ st.conds [] P h t ht with h0 | ⟨c, hc, hcs, hrest⟩
      · simp at h0
      · have hedge : EdgeTo tree s c := ⟨by rw [condsOf, hd]; simpa using hc, hcs⟩
        rcases hrest with rfl | ⟨p, hp, htp⟩
        · exact Relation.TransGen.single hedge
        · exact Relation.TransGen.head hedge (ih c p hp t htp)

theorem gps_completeAux (tree : List StateDef) :
    ∀ (n : Nat) (s : String) (P : List String),
      getParentStates tree n s = some P →
      ∀ c, EdgeTo tree s c → ∀ t, Relation.ReflTransGen (EdgeTo tree) c t → t ∈ P := by
  intro n
  induction n with
  | zero =>
    intro s P h
    rw [getParentStates] at h
    exact absurd h (by simp)
  | succ n ih =>
    intro s P h c hedge t hrt
    rw [getParentStates] at h
    cases hd : dictLookup tree s with
    | none =>
      have := hedge.1
      rw [condsOf, hd] at this
      simp at this
    | some st =>
      rw [hd] at h
      have hc : c ∈ st.conds := by
        have := hedge.1
        rw [condsOf, hd] at this
        simpa using this
      obtain ⟨hcP, p, hp, hpP⟩ := (gpsAux_props tree _ st.conds [] P h).2 c hc hedge.2
      rcases Relation.ReflTransGen.cases_head hrt with rfl | ⟨d, hcd, hdt⟩
      · exact hcP
      · exact hpP t (ih c p hp d hcd t hdt)

theorem gps_complete (tree : List StateDef) (n : Nat) (s : String) (P : List String)
    (h : getParentStates tree n s = some P) :
    ∀ t, Ancestor tree s t → t ∈ P := by
  intro t ht
  obtain ⟨c, hc, hct⟩ := Relation.TransGen.head'_iff.mp ht
  exact gps_completeAux tree n s P h c hc t hct

theorem gps_succAux (tree : List StateDef) :
    ∀ (n : Nat) (s : String) (P : List String),
      getParentStates tree n s = some P →
      ∀ c, EdgeTo tree s c → ∀ t, Relation.ReflTransGen (EdgeTo tree) c t →
        ∃ m, m < n ∧ ∃ Q, getParentStates tree m t = some Q := by
  intro n
  induction n with
  | zero =>
    intro s P h
    rw [getParentStates] at h
    exact absurd h (by simp)
  | succ n ih =>
    intro s P h c hedge t hrt
    rw [getParentStates] at h
    cases hd : dictLookup tree s with
    | none =>
      have := hedge.1
      rw [condsOf, hd] at this
      simp at this
    | some st =>
      rw [hd] at h
      have hc : c ∈ st.conds := by
        have := hedge.1
        rw [condsOf, hd] at this
        simpa using this
      obtain ⟨hcP, p, hp, hpP⟩ := (gpsAux_props tree _ st.conds [] P h).2 c hc hedge.2
      rcases Relation.ReflTransGen.cases_head hrt with rfl | ⟨d, hcd, hdt⟩
      · exact ⟨n, Nat.lt_succ_self n, p, hp⟩
      · obtain ⟨m, hm, Q, hQ⟩ := ih c p hp d hcd t hdt
        exact ⟨m, hm.trans (Nat.lt_succ_self n), Q, hQ⟩

theorem gps_no_self (tree : List StateDef) :
    ∀ (n : Nat) (s : String) (P : List String),
      getParentStates tree n s = some P → s ∉ P := by
  intro n
  induction n using Nat.strong_induction_on with
  | _ n ih =>
    intro s P hg hs
    have hanc : Ancestor tree s s := gps_sound tree n s P hg s hs
    obtain ⟨c, hc, hct⟩ := Relation.TransGen.head'_iff.mp hanc
    obtain ⟨m, hm, Q, hQ⟩ := gps_succAux tree n s P hg c hc s hct
    exact ih m hm s Q hQ (gps_complete tree m s Q hQ s hanc)

theorem gps_nodup (tree : List StateDef) (n : Nat) (s : String) (P : List String)
    (h : getParentStates tree n s = some P) : P.Nodup := by
  cases n with
  | zero =>
    rw [getParentStates] at h
    exact absurd h (by simp)
  | succ n =>
    rw [getParentStates] at h
    cases hd : dictLookup tree s with
    | none =>
      rw [hd] at h
      simp at h
      subst h
      exact List.nodup_nil
    | some st =>
      rw [hd] at h
      exact gpsAux_nodup tree _ st.conds [] P List.nodup_nil h

theorem getA_setK_self (m : Store) (k : String) (v : ℚ) :
    getA (setK m k v) k = v := by
  rw [getA, lookup_setK_self]
  rfl

theorem getA_setK_ne (m : Store) (k t : String) (v : ℚ) (h : t ≠ k) :
    getA (setK m k v) t = getA m t := by
  rw [getA, lookup_setK_ne m k t v h]
  rfl

theorem foldl_setK_add (d : ℚ) :
    ∀ (L : List String), L.Nodup → ∀ (m : Store) (t : String),
      getA (L.foldl (fun acc p => setK acc p (min 1 (getA acc p + d))) m) t
        = if t ∈ L then min 1 (getA m t + d) else getA m t := by
  intro L
  induction L with
  | nil => intro _ m t; simp
  | cons p L ih =>
    intro hnd m t
    rw [List.nodup_cons] at hnd
    rw [List.foldl_cons, ih hnd.2]
    by_cases htp : t = p
    · subst htp
      rw [if_neg hnd.1, if_pos (List.mem_cons_self _ _), getA_setK_self]
    · rw [getA_setK_ne _ _ _ _ htp]
      by_cases htL : t ∈ L
      · rw [if_pos htL, if_pos (List.mem_cons_of_mem _ htL)]
      · rw [if_neg htL, if_neg (by simp [htp, htL])]

/-- Claim C10: whenever the parent computation for a state `s` known to the
weight table returns (its recursion terminates, result `P`), the set `P` is
exactly the set of transitive ancestors of `s` along condition edges, and
`increase_state_weight` raises `s` by `amount` (capped at `1`) and every
transitive ancestor — at any distance — by `amount * 0.5` (capped at `1`),
leaving every other state unchanged; for a name not in the table it changes
nothing. -/
theorem increase_weight_raises_ancestors (tree : List StateDef) (w : Store)
    (s : String) (a : ℚ) (fuel : Nat) (P : List String)
    (hg : getParentStates tree fuel s = some P) :
    (∀ t, t ∈ P ↔ Ancestor tree s t) ∧
    ((w.lookup s).isNone = true → increase_state_weight tree w s a fuel = some w) ∧
    ((w.lookup s).isSome = true →
      ∃ w', increase_state_weight tree w s a fuel = some w' ∧
        ∀ t, (t = s → getA w' t = min 1 (getA w s + a)) ∧
          (t ≠ s → Ancestor tree s t → getA w' t = min 1 (getA w t + a * (1/2))) ∧
          (t ≠ s → ¬ Ancestor tree s t → getA w' t = getA w t)) := by
  have hiff : ∀ t, t ∈ P ↔ Ancestor tree s t := fun t =>
    ⟨fun ht => gps_sound tree fuel s P hg t ht,
     fun ht => gps_complete tree fuel s P hg t ht⟩
  have hsP : s ∉ P := gps_no_self tree fuel s P hg
  refine ⟨hiff, ?_, ?_⟩
  · intro hnone
    rw [increase_state_weight, if_pos hnone]
  · intro hsome
    have hnn : ¬ ((w.lookup s).isNone = true) := by
      intro hn
      rw [Option.isNone_iff_eq_none] at hn
      rw [hn] at hsome
      simp at hsome
    rw [increase_state_weight, if_neg hnn, hg]
    simp only [Option.map_some', Option.some_inj]
    refine ⟨_, rfl, ?_⟩
    intro t
    have hbase := foldl_setK_add (a * (1/2)) P (gps_nodup tree fuel s P hg)
      (setK w s (min 1 (getA w s + a))) t
    refine ⟨?_, ?_, ?_⟩
    · rintro rfl
      rw [hbase, if_neg hsP, getA_setK_self]
    · intro hts hanc
      rw [hbase, if_pos ((hiff t).mpr hanc), getA_setK_ne _ _ _ _ hts]
    · intro hts hnanc
      rw [hbase, if_neg (fun hP => hnanc ((hiff t).mp hP)), getA_setK_ne _ _ _ _ hts]

theorem c10_parents_eval :
    getParentStates testTree 3 "Гнев" = some ["Тревога", "Пустота"] := by
  simp [getParentStates, gpsAux, dictLookup, testTree, insertU, unionU,
    List.find?, List.lookup]

/-- Witness for C10: on the experiment graph, the ancestors of `Гнев` are
`Тревога` and `Пустота`, and a concrete `increase_state_weight` call
follows the characterisation. -/
theorem increase_weight_raises_ancestors_witness :
    Ancestor testTree "Гнев" "Пустота" ∧
    (∃ w', increase_state_weight testTree
          [("Гнев", 1/2), ("Тревога", 1/2), ("Пустота", 1/2)] "Гнев" (1/5) 3
        = some w' ∧
      ∀ t, (t = "Гнев" → getA w' t
              = min 1 (getA [("Гнев", (1:ℚ)/2), ("Тревога", 1/2), ("Пустота", 1/2)] "Гнев" + 1/5)) ∧
        (t ≠ "Гнев" → Ancestor testTree "Гнев" t → getA w' t
              = min 1 (getA [("Гнев", (1:ℚ)/2), ("Тревога", 1/2), ("Пустота", 1/2)] t + (1/5) * (1/2))) ∧
        (t ≠ "Гнев" → ¬ Ancestor testTree "Гнев" t → getA w' t
              = getA [("Гнев", (1:ℚ)/2), ("Тревога", 1/2), ("Пустота", 1/2)] t)) := by
  have h := increase_weight_raises_ancestors testTree
    [("Гнев", 1/2), ("Тревога", 1/2), ("Пустота", 1/2)] "Гнев" (1/5) 3
    ["Тревога", "Пустота"] c10_parents_eval
  exact ⟨(h.1 "Пустота").mp (by simp), h.2.2 (by simp [List.lookup])⟩

end AiMind
